import Mathlib

/-!
# Verification of the pkgforge build-system core

A shallow embedding, in Lean 4, of the queue manager, executor, publisher
(GHCR uploader) and catalogue builder of the build-system repository,
together with proofs about the embedded operations.

Conventions of the embedding:
* the SQLite `builds` table is a `List Build`; SQL `UPDATE`/`DELETE`/`SELECT`
  statements become pure functions on that list;
* timestamps are modelled as natural numbers (seconds), machine integers as
  `Int`;
* Go strings are Lean `String`s; per-rune iteration over a Go string becomes
  iteration over `String.data : List Char` (a Go `range` loop yields runes,
  i.e. unicode scalar values, exactly Lean's `Char`);
* fallible operations return `Option`/`Except`.
-/

namespace BuildSystem

/-! ## Data model (pkg/models/recipe.go)

The `Build` row of the queue database, with `time.Time` values modelled as
natural numbers and SQL NULLs as `Option`. -/

/-- One row of the `builds` table (`models.Build`, pkg/models/recipe.go). -/
structure Build where
  id : Int
  pkgName : String
  pkgID : String := ""
  recipePath : String := ""
  status : String
  priority : Int
  arch : String
  forceBuild : Bool := false
  createdAt : Nat
  startedAt : Option Nat := none
  completedAt : Option Nat := none
  durationSecs : Option Int := none
  errorMessage : String := ""
  buildLogURL : String := ""
deriving DecidableEq, Repr

/-- `models.StatusQueued` -/
def statusQueued : String := "queued"

/-- `models.StatusBuilding` -/
def statusBuilding : String := "building"

/-- `models.StatusSucceeded` -/
def statusSucceeded : String := "succeeded"

/-- `models.StatusFailed` -/
def statusFailed : String := "failed"

/-- `models.StatusCancelled` -/
def statusCancelled : String := "cancelled"

/-! ## Queue manager (internal/queue/queue.go) -/

/-- The `WHERE status = 'queued' AND arch = ?` filter of `Manager.GetNext`. -/
def isNextCandidate (arch : String) (b : Build) : Bool :=
  b.status == statusQueued && b.arch == arch

/-- `b` sorts strictly before `c` under `ORDER BY priority DESC, created_at ASC`. -/
def preferredOver (b c : Build) : Bool :=
  b.priority > c.priority || (b.priority == c.priority && b.createdAt < c.createdAt)

/-- `Manager.GetNext` (queue.go lines 45-93): the single queued row for `arch`
ordered by `priority DESC, created_at ASC`, or `none` (no error) when no such
row exists.  SQLite's choice among rows with fully equal sort keys is
unspecified; the fold keeps the earliest such row. -/
def getNext (arch : String) (db : List Build) : Option Build :=
  (db.filter (isNextCandidate arch)).foldl
    (fun acc b =>
      match acc with
      | none => some b
      | some c => if preferredOver b c then some b else some c)
    none

/-- `status` is one of the three terminal statuses (the second branch of
`Manager.UpdateStatus`). -/
def terminalStatus (s : String) : Bool :=
  s == statusSucceeded || s == statusFailed || s == statusCancelled

/-- Effect of the `UPDATE` statement of `Manager.UpdateStatus` (queue.go lines
96-122) on a single row: for the row with the given id, set `status` and
`error_message` unconditionally; additionally stamp `started_at` when the new
status is `building`, and `completed_at` plus `duration_seconds` (computed from
the row's existing `started_at`, NULL-propagating) when the new status is
terminal. Rows with a different id are untouched. -/
def applyUpdate (buildID : Int) (status errorMsg : String) (now : Nat)
    (b : Build) : Build :=
  if b.id = buildID then
    let b1 := { b with status := status, errorMessage := errorMsg }
    if status = statusBuilding then
      { b1 with startedAt := some now }
    else if terminalStatus status then
      { b1 with completedAt := some now,
                durationSecs := b.startedAt.map (fun s0 => (now : Int) - (s0 : Int)) }
    else b1
  else b

/-- `Manager.UpdateStatus` over the whole table. -/
def updateStatus (buildID : Int) (status errorMsg : String) (now : Nat)
    (db : List Build) : List Build :=
  db.map (applyUpdate buildID status errorMsg now)

/-- `Manager.Cancel` (queue.go lines 257-259). -/
def cancel (buildID : Int) (now : Nat) (db : List Build) : List Build :=
  updateStatus buildID statusCancelled "Cancelled by user" now db

/-- `Manager.Clear` (queue.go lines 239-254): `DELETE FROM builds` with a
`WHERE status = ?` clause appended exactly when the argument is non-empty. -/
def clear (status : String) (db : List Build) : List Build :=
  if status = "" then [] else db.filter (fun b => b.status != status)

/-! ## Theorems about the queue manager -/

/-- `r` is at least as early as `b` in the `(priority DESC, created_at ASC)`
order. -/
def dispatchLE (r b : Build) : Prop :=
  b.priority < r.priority ∨ (b.priority = r.priority ∧ r.createdAt ≤ b.createdAt)

theorem dispatchLE_of_preferredOver {b c : Build}
    (h : preferredOver b c = true) : dispatchLE b c := by
  simp only [preferredOver, Bool.or_eq_true, Bool.and_eq_true, decide_eq_true_eq,
    beq_iff_eq] at h
  rcases h with h | ⟨h1, h2⟩
  · exact Or.inl h
  · exact Or.inr ⟨h1.symm, Nat.le_of_lt h2⟩

theorem dispatchLE_of_not_preferredOver {b c : Build}
    (h : ¬ preferredOver b c = true) : dispatchLE c b := by
  simp only [preferredOver, Bool.or_eq_true, Bool.and_eq_true, decide_eq_true_eq,
    beq_iff_eq, not_or, not_and] at h
  rcases h with ⟨h1, h2⟩
  rcases lt_or_eq_of_le (not_lt.mp h1) with h | h
  · exact Or.inl h
  · exact Or.inr ⟨h, not_lt.mp (h2 h)⟩

theorem dispatchLE_trans {a b c : Build}
    (h1 : dispatchLE a b) (h2 : dispatchLE b c) : dispatchLE a c := by
  rcases h1 with h1 | ⟨e1, t1⟩ <;> rcases h2 with h2 | ⟨e2, t2⟩
  · exact Or.inl (lt_trans h2 h1)
  · exact Or.inl (e2 ▸ h1)
  · exact Or.inl (e1 ▸ h2)
  · exact Or.inr ⟨e2.trans e1, le_trans t1 t2⟩

/-- The fold inside `getNext`, characterised with a non-empty accumulator. -/
theorem getNext_fold_spec (l : List Build) :
    ∀ (c x : Build),
      l.foldl (fun acc b =>
        match acc with
        | none => some b
        | some c => if preferredOver b c then some b else some c) (some c) = some x →
      (x = c ∨ x ∈ l) ∧ dispatchLE x c ∧ ∀ b ∈ l, dispatchLE x b := by
  induction l with
  | nil =>
    intro c x h
    simp only [List.foldl_nil, Option.some.injEq] at h
    exact ⟨Or.inl h.symm, h ▸ Or.inr ⟨rfl, le_refl _⟩, by simp⟩
  | cons b bs ih =>
    intro c x h
    simp only [List.foldl_cons] at h
    by_cases hp : preferredOver b c = true
    · rw [if_pos hp] at h
      obtain ⟨hmem, hle, hall⟩ := ih b x h
      refine ⟨?_, ?_, ?_⟩
      · rcases hmem with rfl | hmem
        · exact Or.inr (List.mem_cons_self _ _)
        · exact Or.inr (List.mem_cons_of_mem _ hmem)
      · exact dispatchLE_trans hle (dispatchLE_of_preferredOver hp)
      · intro b' hb'
        rcases List.mem_cons.mp hb' with rfl | hb'
        · exact hle
        · exact hall b' hb'
    · rw [if_neg hp] at h
      obtain ⟨hmem, hle, hall⟩ := ih c x h
      refine ⟨?_, hle, ?_⟩
      · rcases hmem with rfl | hmem
        · exact Or.inl rfl
        · exact Or.inr (List.mem_cons_of_mem _ hmem)
      intro b' hb'
      rcases List.mem_cons.mp hb' with rfl | hb'
      · exact dispatchLE_trans hle (dispatchLE_of_not_preferredOver hp)
      · exact hall b' hb'

/-- The fold never loses a non-empty accumulator. -/
theorem getNext_fold_isSome (l : List Build) :
    ∀ (c : Build),
      (l.foldl (fun acc b =>
        match acc with
        | none => some b
        | some c => if preferredOver b c then some b else some c) (some c)).isSome := by
  induction l with
  | nil => intro c; rfl
  | cons b bs ih =>
    intro c
    simp only [List.foldl_cons]
    by_cases hp : preferredOver b c = true
    · rw [if_pos hp]; exact ih b
    · rw [if_neg hp]; exact ih c

/-- C1. `Manager.GetNext` returns `none` exactly when no queued row for the
requested architecture exists, and otherwise returns a queued row of that
architecture that has maximal priority and, among rows of equal priority, the
smallest `created_at`; it never returns a row of another status or
architecture. -/
theorem getNext_correct (arch : String) (db : List Build) :
    (getNext arch db = none ↔ ∀ b ∈ db, ¬(b.status = statusQueued ∧ b.arch = arch)) ∧
    (∀ r, getNext arch db = some r →
      r ∈ db ∧ r.status = statusQueued ∧ r.arch = arch ∧
      ∀ b ∈ db, b.status = statusQueued → b.arch = arch →
        b.priority ≤ r.priority ∧ (b.priority = r.priority → r.createdAt ≤ b.createdAt)) := by
  have hcand : ∀ b : Build, isNextCandidate arch b = true ↔
      (b.status = statusQueued ∧ b.arch = arch) := by
    intro b
    simp [isNextCandidate]
  constructor
  · constructor
    · intro h b hb hq
      unfold getNext at h
      rcases hfb : db.filter (isNextCandidate arch) with _ | ⟨f, fs⟩
      · have : b ∈ db.filter (isNextCandidate arch) :=
          List.mem_filter.mpr ⟨hb, (hcand b).mpr hq⟩
        rw [hfb] at this
        exact absurd this (List.not_mem_nil b)
      · rw [hfb] at h
        simp only [List.foldl_cons] at h
        have := getNext_fold_isSome fs f
        rw [h] at this
        exact absurd this (by simp)
    · intro h
      unfold getNext
      have : db.filter (isNextCandidate arch) = [] := by
        rcases hfb : db.filter (isNextCandidate arch) with _ | ⟨f, fs⟩
        · rfl
        · exfalso
          have hf : f ∈ db.filter (isNextCandidate arch) := by
            rw [hfb]; exact List.mem_cons_self _ _
          obtain ⟨hfd, hfc⟩ := List.mem_filter.mp hf
          exact h f hfd ((hcand f).mp hfc)
      rw [this]
      rfl
  · intro r hr
    unfold getNext at hr
    rcases hfb : db.filter (isNextCandidate arch) with _ | ⟨f, fs⟩
    · rw [hfb] at hr
      exact absurd hr (by simp)
    · rw [hfb] at hr
      simp only [List.foldl_cons] at hr
      obtain ⟨hmem, hle, hall⟩ := getNext_fold_spec fs f r hr
      have hrfilter : r ∈ db.filter (isNextCandidate arch) := by
        rw [hfb]
        rcases hmem with rfl | hmem
        · exact List.mem_cons_self _ _
        · exact List.mem_cons_of_mem _ hmem
      obtain ⟨hrdb, hrc⟩ := List.mem_filter.mp hrfilter
      obtain ⟨hrq, hra⟩ := (hcand r).mp hrc
      refine ⟨hrdb, hrq, hra, ?_⟩
      intro b hb hbq hba
      have hbfilter : b ∈ db.filter (isNextCandidate arch) :=
        List.mem_filter.mpr ⟨hb, (hcand b).mpr ⟨hbq, hba⟩⟩
      rw [hfb] at hbfilter
      have hdle : dispatchLE r b := by
        rcases List.mem_cons.mp hbfilter with rfl | hbfs
        · exact hle
        · exact hall b hbfs
      rcases hdle with h | ⟨h1, h2⟩
      · exact ⟨le_of_lt h, fun he => absurd he (ne_of_lt h)⟩
      · exact ⟨le_of_eq h1, fun _ => h2⟩

/-- Priority-dispatch scenario from the specification: three queued rows on
`aarch64-Linux`. -/
def scenarioRow1 : Build :=
  { id := 1, pkgName := "p1", status := statusQueued, priority := 10,
    arch := "aarch64-Linux", createdAt := 100 }

def scenarioRow2 : Build :=
  { id := 2, pkgName := "p2", status := statusQueued, priority := 100,
    arch := "aarch64-Linux", createdAt := 101 }

def scenarioRow3 : Build :=
  { id := 3, pkgName := "p3", status := statusQueued, priority := 10,
    arch := "aarch64-Linux", createdAt := 99 }

def scenarioDb : List Build := [scenarioRow1, scenarioRow2, scenarioRow3]

/-- Witness for `getNext_correct`: on the scenario database, `GetNext` picks
row 2 (priority 100) and that row is queued on the requested architecture. -/
theorem getNext_correct_witness :
    scenarioRow2 ∈ scenarioDb ∧ scenarioRow2.status = statusQueued ∧
      scenarioRow2.arch = "aarch64-Linux" := by
  have h := (getNext_correct "aarch64-Linux" scenarioDb).2 scenarioRow2 (by decide)
  exact ⟨h.1, h.2.1, h.2.2.1⟩

/-- C2 counterexample: `UpdateStatus` does not reject a transition out of a
terminal state.  A `succeeded` row is moved straight to `building`. -/
def terminalRow : Build :=
  { id := 1, pkgName := "p", status := statusSucceeded, priority := 0,
    arch := "x86_64-Linux", createdAt := 0, startedAt := some 1,
    completedAt := some 2, durationSecs := some 1 }

theorem updateStatus_escapes_terminal :
    (updateStatus 1 statusBuilding "" 5 [terminalRow]).map Build.status
      = [statusBuilding] ∧ statusBuilding ≠ statusSucceeded := by
  constructor
  · rfl
  · decide

/-- C2 (amended). `Manager.UpdateStatus` performs the requested status change
unconditionally — no state-machine edge is checked, whatever the row's current
status — setting `status` and `error_message` on the row with the given id,
stamping `started_at` on a change to `building` and `completed_at` plus
`duration_seconds` on a change to any terminal status, and leaving every other
row and every other field unchanged. -/
theorem updateStatus_unconditional (buildID : Int) (st errorMsg : String)
    (now : Nat) (db : List Build) :
    (updateStatus buildID st errorMsg now db).length = db.length ∧
    updateStatus buildID st errorMsg now db = db.map (applyUpdate buildID st errorMsg now) ∧
    ∀ b ∈ db,
      (b.id ≠ buildID → applyUpdate buildID st errorMsg now b = b) ∧
      (b.id = buildID →
        let r := applyUpdate buildID st errorMsg now b
        r.status = st ∧ r.errorMessage = errorMsg ∧ r.id = b.id ∧
        r.arch = b.arch ∧ r.priority = b.priority ∧ r.createdAt = b.createdAt ∧
        (st = statusBuilding →
          r.startedAt = some now ∧ r.completedAt = b.completedAt ∧
          r.durationSecs = b.durationSecs) ∧
        (terminalStatus st = true →
          r.startedAt = b.startedAt ∧ r.completedAt = some now ∧
          r.durationSecs = b.startedAt.map (fun s0 => (now : Int) - (s0 : Int)))) := by
  refine ⟨by simp [updateStatus], rfl, ?_⟩
  intro b _
  constructor
  · intro hne
    simp [applyUpdate, hne]
  · intro heq
    have hterm : terminalStatus statusBuilding = false := by decide
    by_cases hb : st = statusBuilding
    · subst hb
      simp [applyUpdate, heq, hterm]
    · by_cases ht : terminalStatus st = true
      · simp [applyUpdate, heq, hb, ht]
      · simp [applyUpdate, heq, hb, ht]

/-- Witness for `updateStatus_unconditional`: marking row 1 of the terminal-row
database as `building` indeed lands it in `building` with a fresh
`started_at`. -/
theorem updateStatus_unconditional_witness :
    (applyUpdate 1 statusBuilding "" 5 terminalRow).status = statusBuilding ∧
    (applyUpdate 1 statusBuilding "" 5 terminalRow).startedAt = some 5 := by
  have h := ((updateStatus_unconditional 1 statusBuilding "" 5 [terminalRow]).2.2
    terminalRow (List.mem_singleton.mpr rfl)).2 (by decide)
  exact ⟨h.1, (h.2.2.2.2.2.2.1 rfl).1⟩

/-- C10. `Manager.Clear` with a non-empty status deletes exactly the rows of
that status (all other rows survive, in order); with the empty status it
deletes every row, queued and building rows included. -/
theorem clear_spec (status : String) (db : List Build) :
    (status ≠ "" →
      (∀ b, b ∈ clear status db ↔ b ∈ db ∧ b.status ≠ status) ∧
      (clear status db).Sublist db) ∧
    clear "" db = [] := by
  constructor
  · intro hne
    constructor
    · intro b
      unfold clear
      rw [if_neg hne]
      simp [List.mem_filter]
    · unfold clear
      rw [if_neg hne]
      exact List.filter_sublist db
  · unfold clear
    rw [if_pos rfl]

/-- Witness for `clear_spec`: clearing `failed` rows from the scenario database
keeps queued row 1 (its status differs from `failed`). -/
theorem clear_spec_witness :
    scenarioRow1 ∈ clear statusFailed scenarioDb := by
  have h := ((clear_spec statusFailed scenarioDb).1 (by decide)).1 scenarioRow1
  exact h.mpr ⟨by decide, by decide⟩

/-! ## Executor (internal/executor/executor.go)

`Executor.ExecuteNext` (lines 77-94) claims work with a bare `Manager.GetNext`
read — the store is not modified — and only later, inside
`Executor.ExecuteBuild` (line 101), issues a separate `Manager.UpdateStatus`
write that moves the row to `building`.  The two store operations are not
wrapped in a transaction.  The scheduler below interleaves the two phases of
two workers A and B as atomic store operations, which is exactly the
granularity the database serializes. -/

/-- The claim phase of `ExecuteNext`: a read returning the claimed id. -/
def claimPhase (arch : String) (db : List Build) : Option Int :=
  (getNext arch db).map Build.id

/-- The transition phase of `ExecuteBuild`: `UpdateStatus(id, building, "")`. -/
def startPhase (buildID : Int) (now : Nat) (db : List Build) : List Build :=
  updateStatus buildID statusBuilding "" now db

/-- Shared state of two workers draining the same architecture. -/
structure SchedState where
  db : List Build
  claimedA : Option Int
  claimedB : Option Int
deriving DecidableEq, Repr

/-- One store-serialized step of worker A or B: its `GetNext` read or its
`UpdateStatus(building)` write. -/
inductive WorkerOp where
  | claimA | claimB | startA | startB
deriving DecidableEq, Repr

def applyOp (arch : String) (now : Nat) (s : SchedState) : WorkerOp → SchedState
  | .claimA => { s with claimedA := claimPhase arch s.db }
  | .claimB => { s with claimedB := claimPhase arch s.db }
  | .startA =>
    match s.claimedA with
    | some i => { s with db := startPhase i now s.db }
    | none => s
  | .startB =>
    match s.claimedB with
    | some i => { s with db := startPhase i now s.db }
    | none => s

def runSchedule (arch : String) (now : Nat) (ops : List WorkerOp)
    (s : SchedState) : SchedState :=
  ops.foldl (applyOp arch now) s

/-- What an atomic claim-and-transition would be: `GetNext` and the
`building` update as one serialized store step. -/
def claimNextAtomic (arch : String) (now : Nat) (db : List Build) :
    Option Int × List Build :=
  match getNext arch db with
  | some b => (some b.id, startPhase b.id now db)
  | none => (none, db)

def soloQueuedRow : Build :=
  { id := 1, pkgName := "pkg", status := statusQueued, priority := 0,
    arch := "x86_64-Linux", createdAt := 0 }

/-- C5. The claim is NOT a single store-serialized step: because `ExecuteNext`
reads via `GetNext` and transitions via a separate `UpdateStatus`, the
interleaving `A.GetNext, B.GetNext, A.Update(building), B.Update(building)`
over a single queued row hands build id 1 to **both** workers, each of which
then runs the build and moves id 1 into `building`.  An atomic
claim-and-transition (the last conjunct) would instead leave the second worker
empty-handed. -/
theorem executeNext_claim_not_serialized :
    (runSchedule "x86_64-Linux" 7 [.claimA, .claimB, .startA, .startB]
        ⟨[soloQueuedRow], none, none⟩).claimedA = some 1 ∧
    (runSchedule "x86_64-Linux" 7 [.claimA, .claimB, .startA, .startB]
        ⟨[soloQueuedRow], none, none⟩).claimedB = some 1 ∧
    (claimNextAtomic "x86_64-Linux" 7
        (claimNextAtomic "x86_64-Linux" 7 [soloQueuedRow]).2).1 = none := by
  refine ⟨rfl, rfl, ?_⟩
  decide

/-! ### Build outcome reporting (`ExecuteBuild`, executor.go lines 117-143) -/

/-- The error message recorded for a failed build: the last 500 bytes of the
log file when it is readable (`os.ReadFile` succeeded), the whole log when
shorter, and the wrapped driver error otherwise. -/
inductive FailMessage where
  | fromLog (tail : List UInt8)
  | wrapped (msg : String)
deriving DecidableEq, Repr

/-- `logContent[len(logContent)-500:]` when over 500 bytes, else the whole
content (executor.go lines 122-128). -/
def logTail (content : List UInt8) : List UInt8 :=
  if content.length > 500 then content.drop (content.length - 500) else content

/-- Outcome of `ExecuteBuild` after `runSbuild` returns: status written through
`UpdateStatus` and the error message, as a function of the driver error (none
for a zero exit) and the log file content (none when unreadable). -/
def executeBuildResult (runErr : Option String) (logContent : Option (List UInt8)) :
    String × Option FailMessage :=
  match runErr with
  | none => (statusSucceeded, none)
  | some e =>
    match logContent with
    | some c => (statusFailed, some (.fromLog (logTail c)))
    | none => (statusFailed, some (.wrapped ("Build failed: " ++ e)))

/-- C8. On a non-zero driver exit the build is marked `failed`: when the log is
readable the recorded message is a suffix of the log of length
`min 500 (length)` — the last 500 bytes, or the whole log if shorter — and
otherwise it is the wrapped driver error; a zero exit is marked `succeeded`. -/
theorem executeBuild_outcome :
    (∀ (e : String) (c : List UInt8),
      (executeBuildResult (some e) (some c)).1 = statusFailed ∧
      ∃ pre, (executeBuildResult (some e) (some c)).2 = some (.fromLog (logTail c)) ∧
        c = pre ++ logTail c ∧ (logTail c).length = min 500 c.length) ∧
    (∀ e : String,
      executeBuildResult (some e) none
        = (statusFailed, some (.wrapped ("Build failed: " ++ e)))) ∧
    (∀ logContent, executeBuildResult none logContent = (statusSucceeded, none)) := by
  refine ⟨?_, fun _ => rfl, fun _ => rfl⟩
  intro e c
  refine ⟨rfl, c.take (c.length - 500), rfl, ?_, ?_⟩
  · unfold logTail
    by_cases h : c.length > 500
    · rw [if_pos h, List.take_append_drop]
    · rw [if_neg h, List.take_eq_nil_iff.mpr]
      · rfl
      · omega
  · unfold logTail
    by_cases h : c.length > 500
    · rw [if_pos h]
      simp only [List.length_drop]
      omega
    · rw [if_neg h]
      omega

/-! ## Publisher (internal/ghcr/uploader.go)

Only the fields of `PackageInfo` that feed target determination and per-push
file selection are carried; the remaining metadata fields never enter these
computations. -/

structure PackageInfo where
  pkg : String := ""
  pkgName : String := ""
  pkgFamily : String := ""
  provides : List String := []
deriving DecidableEq, Repr

/-- `needle` is a prefix of `hay` (rune-wise). -/
def leadsWith : List Char → List Char → Bool
  | [], _ => true
  | _ :: _, [] => false
  | a :: as, b :: bs => a == b && leadsWith as bs

/-- `strings.Contains hay needle`: some position of `hay` starts with
`needle`. -/
def hasSubstring (needle : List Char) : List Char → Bool
  | [] => needle.isEmpty
  | b :: rest => leadsWith needle (b :: rest) || hasSubstring needle rest

/-- `strings.Contains` on strings. -/
def strContains (hay needle : String) : Bool :=
  hasSubstring needle.data hay.data

/-- `strings.HasSuffix s suffix`. -/
def strHasSuffix (s suffix : String) : Bool :=
  leadsWith suffix.data.reverse s.data.reverse

/-- The chars of `pkg` strictly before its last `.`, or `none` when `pkg` has
no dot (`strings.LastIndex(targetName, ".")` returning `-1`). -/
def beforeLastDot : List Char → Option (List Char)
  | [] => none
  | c :: rest =>
    match beforeLastDot rest with
    | some s => some (c :: s)
    | none => if c = '.' then some [] else none

/-- The extension-stripping step of `determineUploadTargets` (uploader.go lines
853-858): when the last dot sits at a positive index (`idx > 0`, i.e. the stem
is non-empty) and the stem contains no further dot, drop the extension. -/
def stripTrailingExt (name : String) : String :=
  match beforeLastDot name.data with
  | some base => if base ≠ [] ∧ ¬ base.contains '.' then String.mk base else name
  | none => name

/-- `Uploader.determineUploadTargets` (uploader.go lines 838-865). -/
def determineUploadTargets (p : PackageInfo) : List String :=
  if p.provides.length > 1 then p.provides
  else
    let targetName :=
      if p.provides.length = 1 ∧ p.provides.headD "" ≠ "" then p.provides.headD ""
      else if p.pkgName ≠ "" then p.pkgName
      else if p.pkgFamily ≠ "" then p.pkgFamily
      else if p.pkg ≠ "" then stripTrailingExt p.pkg
      else ""
    if targetName ≠ "" then [targetName] else []

/-- Per-file inclusion test of `Uploader.uploadSinglePackage` (uploader.go
lines 885-906): a file is dropped exactly when the package provides several
binaries and the file's basename equals one of them, other than the current
target, without any dot in the name. -/
def includeFileInPush (provides : List String) (targetName fileName : String) : Bool :=
  let isOtherBinary :=
    if provides.length > 1 then
      provides.any (fun p => fileName == p && p != targetName && !(fileName.contains '.'))
    else false
  !isOtherBinary

/-- `Uploader.generateMetadataJSON` (uploader.go lines 1078-1100), modelled as
the list of `<target>.json` files it writes: when any `*.json` glob match does
not end in `.sig` the function returns immediately and writes nothing;
otherwise it writes one file per upload target, failing when there are no
targets. -/
def generateMetadataTargets (jsonFiles : List String) (p : PackageInfo) :
    Except String (List String) :=
  if jsonFiles.any (fun f => !strHasSuffix f ".sig") then .ok []
  else
    let ts := determineUploadTargets p
    if ts.isEmpty then .error "no upload targets found" else .ok ts

/-- The fan-out loop of `Uploader.Upload` (uploader.go lines 806-821) invokes
`uploadSinglePackage` — one `oras push` — once per upload target. -/
def uploadPushCount (p : PackageInfo) : Nat :=
  (determineUploadTargets p).length

/-- C3 counterexample: with `provides = ["cal","printf"]` the Publisher issues
two pushes, but when the output directory already holds a (driver-emitted)
metadata JSON, `generateMetadataJSON` writes **zero** `<target>.json` files,
not `|provides|` of them. -/
def multiProvidesInfo : PackageInfo :=
  { pkgFamily := "a-utils", provides := ["cal", "printf"] }

theorem generateMetadata_skipped_when_json_present :
    multiProvidesInfo.provides.length = 2 ∧
    uploadPushCount multiProvidesInfo = 2 ∧
    generateMetadataTargets ["meta.json"] multiProvidesInfo = .ok [] := by
  refine ⟨rfl, rfl, ?_⟩
  rfl

/-- C3 (amended). `determineUploadTargets` computes the target set exactly as
claimed — all of `provides` when there are several, else the single non-empty
`provides` entry, else `pkg_name`, else `pkg_family`, else `pkg` with its
trailing extension stripped, else empty (and `Upload` then fails with "no
upload targets determined") — and when `|provides| > 1` exactly `|provides|`
pushes are issued, while exactly `|provides|` `<target>.json` files are
generated only when the directory holds no non-signature `*.json`; otherwise
none are. -/
theorem determineUploadTargets_spec (p : PackageInfo) :
    (p.provides.length > 1 → determineUploadTargets p = p.provides) ∧
    (∀ s, p.provides = [s] → s ≠ "" → determineUploadTargets p = [s]) ∧
    ((p.provides = [] ∨ p.provides = [""]) →
      (p.pkgName ≠ "" → determineUploadTargets p = [p.pkgName]) ∧
      (p.pkgName = "" → p.pkgFamily ≠ "" → determineUploadTargets p = [p.pkgFamily]) ∧
      (p.pkgName = "" → p.pkgFamily = "" → p.pkg ≠ "" →
        determineUploadTargets p = [stripTrailingExt p.pkg]) ∧
      (p.pkgName = "" → p.pkgFamily = "" → p.pkg = "" →
        determineUploadTargets p = [])) ∧
    (p.provides.length > 1 →
      uploadPushCount p = p.provides.length ∧
      ∀ jsonFiles : List String,
        generateMetadataTargets jsonFiles p =
          if jsonFiles.any (fun f => !strHasSuffix f ".sig") then .ok []
          else .ok p.provides) := by
  have hstrip : ∀ s : String, s ≠ "" → stripTrailingExt s ≠ "" := by
    intro s hs
    rcases hb : beforeLastDot s.data with _ | base
    · simpa [stripTrailingExt, hb] using hs
    · simp only [stripTrailingExt, hb]
      split
      · rename_i hcond
        intro hmk
        apply hcond.1
        have : (String.mk base).data = ("" : String).data := by rw [hmk]
        simpa using this
      · exact hs
  refine ⟨?_, ?_, ?_, ?_⟩
  · intro h
    unfold determineUploadTargets
    rw [if_pos h]
  · intro s hs hne
    simp [determineUploadTargets, hs, hne]
  · intro hp
    refine ⟨?_, ?_, ?_, ?_⟩
    · intro hn
      rcases hp with h | h <;> simp [determineUploadTargets, h, hn]
    · intro hn hf
      rcases hp with h | h <;> simp [determineUploadTargets, h, hn, hf]
    · intro hn hf hg
      rcases hp with h | h <;>
        simp [determineUploadTargets, h, hn, hf, hg, hstrip p.pkg hg]
    · intro hn hf hg
      rcases hp with h | h <;> simp [determineUploadTargets, h, hn, hf, hg]
  · intro h
    have htargets : determineUploadTargets p = p.provides := by
      unfold determineUploadTargets
      rw [if_pos h]
    refine ⟨by unfold uploadPushCount; rw [htargets], ?_⟩
    intro jsonFiles
    unfold generateMetadataTargets
    by_cases hj : jsonFiles.any (fun f => !strHasSuffix f ".sig") = true
    · rw [if_pos hj, if_pos hj]
    · rw [if_neg hj, if_neg hj, htargets]
      have : ¬ p.provides.isEmpty = true := by
        intro he
        rw [List.isEmpty_iff.mp he] at h
        exact absurd h (by decide)
      rw [if_neg this]

/-- Witness for `determineUploadTargets_spec`: the multi-binary package
fan-outs to both provided binaries, with two pushes, and with both
`cal.json` and `printf.json` generated in a directory containing only `.sig`
glob matches. -/
theorem determineUploadTargets_spec_witness :
    determineUploadTargets multiProvidesInfo = ["cal", "printf"] ∧
    uploadPushCount multiProvidesInfo = 2 ∧
    generateMetadataTargets [] multiProvidesInfo = .ok ["cal", "printf"] := by
  have h := determineUploadTargets_spec multiProvidesInfo
  refine ⟨h.1 (by decide), (h.2.2.2 (by decide)).1, ?_⟩
  have h2 := (h.2.2.2 (by decide)).2 []
  simpa using h2

/-- C4. For any push the Publisher actually issues (the target comes from
`determineUploadTargets`) over real directory entries (non-empty basenames), a
file is included exactly when its basename is not an extensionless name of
another provided binary; and any file whose name contains a dot is included in
every push unconditionally. -/
theorem uploadFileSelection :
    (∀ (p : PackageInfo) (t f : String),
      t ∈ determineUploadTargets p → f ≠ "" →
      (includeFileInPush p.provides t f = true ↔
        ¬ ∃ q, q ∈ p.provides ∧ f = q ∧ q ≠ t ∧ f.contains '.' = false)) ∧
    (∀ (provides : List String) (t f : String),
      f.contains '.' = true → includeFileInPush provides t f = true) := by
  constructor
  · intro p t f ht hf
    unfold includeFileInPush
    by_cases hlen : p.provides.length > 1
    · rw [if_pos hlen]
      simp only [Bool.not_eq_true', List.any_eq_false]
      constructor
      · rintro hall ⟨q, hq, hfq, hqt, hdot⟩
        have h2 := hall q hq
        rw [Bool.not_eq_true] at h2
        simp only [Bool.and_eq_false_iff, beq_eq_false_iff_ne, bne_eq_false_iff_eq,
          Bool.not_eq_false'] at h2
        rcases h2 with (h | h) | h
        · exact h hfq
        · exact hqt h
        · rw [hdot] at h; exact absurd h (by decide)
      · intro hne q hq
        rw [Bool.not_eq_true]
        by_contra hcon
        rw [Bool.not_eq_false] at hcon
        simp only [Bool.and_eq_true, beq_iff_eq, bne_iff_ne,
          Bool.not_eq_true'] at hcon
        exact hne ⟨q, hq, hcon.1.1, hcon.1.2, hcon.2⟩
    · rw [if_neg hlen]
      simp only [Bool.not_false, true_iff]
      intro ⟨q, hq, hfq, hqt, _⟩
      -- with at most one provided binary, the claimed exclusion set is empty:
      -- either there is no provided name, or it coincides with the target, or
      -- it is the empty string (impossible for a directory entry)
      rcases hp : p.provides with _ | ⟨s, rest⟩
      · rw [hp] at hq; exact absurd hq (List.not_mem_nil q)
      · have hrest : rest = [] := by
          rw [hp] at hlen
          simp only [List.length_cons, gt_iff_lt, not_lt] at hlen
          exact List.eq_nil_of_length_eq_zero (by omega)
        subst hrest
        rw [hp] at hq
        have hqs : q = s := List.mem_singleton.mp hq
        subst hqs
        by_cases hs : q = ""
        · exact hf (hs ▸ hfq)
        · -- provides = [q] with q ≠ "": the only target is q itself
          have : determineUploadTargets p = [q] :=
            (determineUploadTargets_spec p).2.1 q hp hs
          rw [this] at ht
          exact hqt (List.mem_singleton.mp ht).symm
  · intro provides t f hdot
    unfold includeFileInPush
    by_cases hlen : provides.length > 1
    · rw [if_pos hlen]
      simp only [Bool.not_eq_true', List.any_eq_false]
      intro q _
      simp [hdot]
    · rw [if_neg hlen]
      rfl

/-- Witness for `uploadFileSelection`: in the `cal`/`printf` fan-out, the
`cal` push keeps `cal.json` (it has a dot) and the iff is decided at a
concrete instance. -/
theorem uploadFileSelection_witness :
    includeFileInPush ["cal", "printf"] "cal" "cal.json" = true :=
  (uploadFileSelection.1 multiProvidesInfo "cal" "cal.json"
    (by decide) (by decide)).mpr (by decide)

/-! ### Version sanitization (`Uploader.sanitizeVersion`, uploader.go lines
1389-1411) -/

/-- The character class kept verbatim by `sanitizeVersion`:
`(ch >= 'a' && ch <= 'z') || (ch >= 'A' && ch <= 'Z') || (ch >= '0' && ch <= '9')
|| ch == '_' || ch == '.' || ch == '-'` (rune comparisons are codepoint
comparisons: `a..z` = 97..122, `A..Z` = 65..90, `0..9` = 48..57). -/
def isVersionChar (c : Char) : Bool :=
  (97 ≤ c.toNat && c.toNat ≤ 122) || (65 ≤ c.toNat && c.toNat ≤ 90) ||
  (48 ≤ c.toNat && c.toNat ≤ 57) || c == '_' || c == '.' || c == '-'

/-- The cutset of `strings.TrimLeft(sanitized, ".-")`. -/
def isVersionTrimChar (c : Char) : Bool :=
  c == '.' || c == '-'

/-- `Uploader.sanitizeVersion`: the empty string is returned unchanged (the
early `if version == ""` return); otherwise every character outside
`[A-Za-z0-9._-]` becomes `_`, leading `.` and `-` are trimmed, and an empty
result becomes the literal `latest`. -/
def sanitizeVersion (version : String) : String :=
  if version = "" then version
  else
    let mapped := version.data.map (fun c => if isVersionChar c then c else '_')
    let trimmed := mapped.dropWhile isVersionTrimChar
    if trimmed = [] then "latest" else String.mk trimmed

/-- Modelled from the claim's words (no early return on the empty input):
replace every character outside `[A-Za-z0-9._-]` by `_` preserving case, trim
leading `.` and `-`, and yield `latest` whenever the result is empty. -/
def sanitizeVersionClaim (v : String) : String :=
  let trimmed :=
    (v.data.map (fun c => if isVersionChar c then c else '_')).dropWhile isVersionTrimChar
  if trimmed = [] then "latest" else String.mk trimmed

/-- C6 counterexample: the code returns the empty version unchanged — it does
NOT sanitize `""` to `"latest"` as the claim states. -/
theorem sanitizeVersion_empty_stays_empty :
    sanitizeVersion "" = "" ∧ sanitizeVersionClaim "" = "latest" ∧
    sanitizeVersion "" ≠ sanitizeVersionClaim "" := by
  refine ⟨rfl, rfl, ?_⟩
  decide

/-- C6 (amended). For every **non-empty** version string, `sanitizeVersion`
behaves exactly as claimed — replace every character outside `[A-Za-z0-9._-]`
by `_` preserving case, trim leading `.` and `-`, empty result becomes
`latest`; the empty version string is returned unchanged (empty), not turned
into `latest`.  In particular `"1.2/α"` sanitizes to `"1.2__"` and `"-foo"` to
`"foo"`. -/
theorem sanitizeVersion_spec :
    (∀ v : String, v ≠ "" → sanitizeVersion v = sanitizeVersionClaim v) ∧
    sanitizeVersion "1.2/α" = "1.2__" ∧ sanitizeVersion "-foo" = "foo" ∧
    sanitizeVersion "" = "" := by
  refine ⟨?_, by decide, by decide, rfl⟩
  intro v hv
  unfold sanitizeVersion sanitizeVersionClaim
  rw [if_neg hv]

/-- Witness for `sanitizeVersion_spec` at the concrete input `"1.2/α"`. -/
theorem sanitizeVersion_spec_witness :
    sanitizeVersion "1.2/α" = sanitizeVersionClaim "1.2/α" :=
  sanitizeVersion_spec.1 "1.2/α" (by decide)

/-! ## Catalogue builder tag selection (internal/metadata/soarql.go)

`QueryPackageMetadata` (lines 112-128) walks the enumerated tag lines in
order — oldest first, so the last match is the newest — keeping every tag
that does not contain `srcbuild` (in its original spelling) and whose
lowercased form contains the lowercased architecture; the empty string is the
"nothing found yet" sentinel, and a final empty value makes the package be
skipped with no error (`return nil, nil`). -/

/-- `strings.ToLower`, per rune. -/
def lowerStr (s : String) : String :=
  String.mk (s.data.map Char.toLower)

/-- The tag filter of the loop body (soarql.go line 117). -/
def tagMatches (arch tag : String) : Bool :=
  !(strContains tag "srcbuild") && strContains (lowerStr tag) (lowerStr arch)

/-- The tag-selection loop of `QueryPackageMetadata`: fold over the enumerated
tags keeping the last match, then skip (`none`) when the sentinel survived. -/
def selectLatestTag (arch : String) (tags : List String) : Option String :=
  let latest := tags.foldl (fun acc tag => if tagMatches arch tag then tag else acc) ""
  if latest = "" then none else some latest

theorem string_eq_empty_iff_data (s : String) : s = "" ↔ s.data = [] := by
  cases s with
  | mk data =>
    constructor
    · intro h
      have := congrArg String.data h
      simpa using this
    · intro h
      simp only at h
      rw [h]

/-- A keep-the-last-match fold equals the last element of the filtered list,
defaulting to the accumulator. -/
theorem foldl_keepLast (pred : String → Bool) :
    ∀ (l : List String) (acc : String),
      l.foldl (fun a tag => if pred tag then tag else a) acc
        = ((l.filter pred).getLast?).getD acc := by
  intro l
  induction l with
  | nil => intro acc; rfl
  | cons t rest ih =>
    intro acc
    rw [List.foldl_cons, List.filter_cons]
    by_cases hp : pred t = true
    · rw [if_pos hp, if_pos hp, ih]
      rcases hfr : rest.filter pred with _ | ⟨m, ms⟩
      · rfl
      · rcases hx : (m :: ms).getLast? with _ | x
        · exact absurd (List.getLast?_eq_none_iff.mp hx) (by simp)
        · rw [List.getLast?_cons_cons, hx]
          rfl
    · rw [if_neg hp, if_neg hp, ih]

/-- The last element of a filtered list splits the original list with no later
match. -/
theorem filter_getLast?_split (pred : String → Bool) :
    ∀ (l : List String) (m : String), (l.filter pred).getLast? = some m →
      ∃ pre post, l = pre ++ m :: post ∧ ∀ u ∈ post, pred u = false := by
  intro l
  induction l with
  | nil => intro m h; exact absurd h (by simp)
  | cons t rest ih =>
    intro m h
    rw [List.filter_cons] at h
    by_cases hp : pred t = true
    · rw [if_pos hp] at h
      rcases hfr : rest.filter pred with _ | ⟨v, vs⟩
      · rw [hfr] at h
        simp only [List.getLast?_singleton, Option.some.injEq] at h
        refine ⟨[], rest, by simp [h], ?_⟩
        intro u hu
        have := List.filter_eq_nil_iff.mp hfr u hu
        exact Bool.not_eq_true _ ▸ Bool.of_not_eq_true this
      · rw [hfr] at h
        rw [List.getLast?_cons_cons] at h
        rw [← hfr] at h
        obtain ⟨pre, post, hsplit, hpost⟩ := ih m h
        exact ⟨t :: pre, post, by simp [hsplit], hpost⟩
    · rw [if_neg hp] at h
      obtain ⟨pre, post, hsplit, hpost⟩ := ih m h
      exact ⟨t :: pre, post, by simp [hsplit], hpost⟩

/-- With a non-empty architecture pattern the empty tag line never matches. -/
theorem tagMatches_empty_tag (arch : String) (harch : arch ≠ "") :
    tagMatches arch "" = false := by
  unfold tagMatches strContains hasSubstring
  have hdata : arch.data ≠ [] := fun h => harch ((string_eq_empty_iff_data arch).mpr h)
  have : (lowerStr arch).data = arch.data.map Char.toLower := rfl
  rcases hd : arch.data with _ | ⟨c, cs⟩
  · exact absurd hd hdata
  · simp [lowerStr, hd]

/-- C9. For a non-empty architecture, the catalogue builder selects, when one
exists, the newest (last-enumerated) tag that does not contain `srcbuild` and
whose lowercased form contains the lowercased architecture; when no tag
qualifies the package is skipped (`none`, no error). -/
theorem selectLatestTag_spec (arch : String) (tags : List String)
    (harch : arch ≠ "") :
    (selectLatestTag arch tags = none ↔ ∀ t ∈ tags, tagMatches arch t = false) ∧
    (∀ t, selectLatestTag arch tags = some t →
      t ∈ tags ∧ tagMatches arch t = true ∧
      ∃ pre post, tags = pre ++ t :: post ∧ ∀ u ∈ post, tagMatches arch u = false) := by
  have hfold := foldl_keepLast (tagMatches arch) tags ""
  have hmatch_ne : ∀ u, tagMatches arch u = true → u ≠ "" := by
    intro u hu he
    rw [he, tagMatches_empty_tag arch harch] at hu
    exact absurd hu (by decide)
  constructor
  · constructor
    · intro h t ht
      by_contra hcon
      have hmem : t ∈ tags.filter (tagMatches arch) :=
        List.mem_filter.mpr ⟨ht, Bool.of_not_eq_false hcon⟩
      unfold selectLatestTag at h
      rw [hfold] at h
      rcases hfl : tags.filter (tagMatches arch) with _ | ⟨v, vs⟩
      · rw [hfl] at hmem; exact absurd hmem (List.not_mem_nil t)
      · rw [hfl] at h
        rcases hlast : (v :: vs).getLast? with _ | m
        · exact absurd hlast (by simp)
        · rw [hlast] at h
          simp only [Option.getD_some] at h
          have hmmem : m ∈ v :: vs := List.mem_of_getLast?_eq_some hlast
          have : tagMatches arch m = true := by
            rw [← hfl] at hmmem
            exact (List.mem_filter.mp hmmem).2
          have hne := hmatch_ne m this
          rw [if_neg hne] at h
          exact absurd h (by simp)
    · intro h
      unfold selectLatestTag
      rw [hfold]
      have : tags.filter (tagMatches arch) = [] := List.filter_eq_nil_iff.mpr
        (fun t ht => by rw [h t ht]; exact Bool.false_ne_true)
      rw [this]
      rfl
  · intro t ht
    unfold selectLatestTag at ht
    rw [hfold] at ht
    rcases hlast : (tags.filter (tagMatches arch)).getLast? with _ | m
    · rw [hlast] at ht
      simp at ht
    · rw [hlast] at ht
      simp only [Option.getD_some] at ht
      have hmmem : m ∈ tags.filter (tagMatches arch) := List.mem_of_getLast?_eq_some hlast
      have hmm := List.mem_filter.mp hmmem
      have hne := hmatch_ne m hmm.2
      rw [if_neg hne] at ht
      have htm : t = m := by
        have := Option.some.inj ht
        exact this.symm
      subst htm
      obtain ⟨pre, post, hsplit, hpost⟩ := filter_getLast?_split (tagMatches arch) tags t hlast
      exact ⟨hmm.1, hmm.2, pre, post, hsplit, hpost⟩

/-- Witness for `selectLatestTag_spec`: among three enumerated tags for
`x86_64-Linux`, the newest non-`srcbuild` matching tag is selected. -/
theorem selectLatestTag_spec_witness :
    selectLatestTag "x86_64-Linux"
      ["1.0-x86_64-linux", "1.1-x86_64-linux", "1.1-x86_64-linux-srcbuild"]
      = some "1.1-x86_64-linux" ∧
    "1.1-x86_64-linux" ∈ ["1.0-x86_64-linux", "1.1-x86_64-linux",
      "1.1-x86_64-linux-srcbuild"] := by
  have hsel : selectLatestTag "x86_64-Linux"
      ["1.0-x86_64-linux", "1.1-x86_64-linux", "1.1-x86_64-linux-srcbuild"]
      = some "1.1-x86_64-linux" := by decide
  have h := (selectLatestTag_spec "x86_64-Linux"
    ["1.0-x86_64-linux", "1.1-x86_64-linux", "1.1-x86_64-linux-srcbuild"]
    (by decide)).2 "1.1-x86_64-linux" hsel
  exact ⟨hsel, h.1⟩

/-! ### Package-name sanitization (`Uploader.sanitizePackageName`, uploader.go
lines 1358-1385) and idempotence of both sanitizers -/

/-- The character class kept by `sanitizePackageName`:
`(ch >= 'a' && ch <= 'z') || (ch >= '0' && ch <= '9') || ch == '_' || ch == '-'`
(codepoints: `a..z` = 97..122, `0..9` = 48..57). -/
def isPkgChar (c : Char) : Bool :=
  (97 ≤ c.toNat && c.toNat ≤ 122) || (48 ≤ c.toNat && c.toNat ≤ 57) ||
  c == '_' || c == '-'

/-- The cutset of `strings.Trim(result, "-_")`. -/
def isTrimChar (c : Char) : Bool :=
  c == '-' || c == '_'

/-- `strings.Trim s "-_"`: remove leading and trailing `-`/`_` runes. -/
def trimDashes (l : List Char) : List Char :=
  ((l.dropWhile isTrimChar).reverse.dropWhile isTrimChar).reverse

/-- `strings.ReplaceAll` for a two-character pattern `ab` replaced by the
single character `c`: scan left to right over non-overlapping matches. -/
def replacePair (a b c : Char) : List Char → List Char
  | x :: y :: rest =>
    if x = a ∧ y = b then c :: replacePair a b c rest
    else x :: replacePair a b c (y :: rest)
  | l => l

/-- `strings.Contains` for the two-character pattern `ab`. -/
def hasPair (a b : Char) : List Char → Bool
  | x :: y :: rest => (x == a && y == b) || hasPair a b (y :: rest)
  | _ => false

/-- Guard of the collapsing loop (uploader.go line 1377): some `--`, `__`,
`_-` or `-_` is still present. -/
def collapseGuard (l : List Char) : Bool :=
  hasPair '-' '-' l || hasPair '_' '_' l || hasPair '_' '-' l || hasPair '-' '_' l

/-- One iteration of the loop body (lines 1378-1381): replace `--` by `-`,
then `__` by `_`, then `_-` by `-`, then `-_` by `-`. -/
def collapseStep (l : List Char) : List Char :=
  replacePair '-' '_' '-' (replacePair '_' '-' '-'
    (replacePair '_' '_' '_' (replacePair '-' '-' '-' l)))

theorem replacePair_nil (a b c : Char) : replacePair a b c [] = [] := rfl

theorem replacePair_singleton (a b c x : Char) : replacePair a b c [x] = [x] := rfl

theorem replacePair_cons_cons (a b c x y : Char) (rest : List Char) :
    replacePair a b c (x :: y :: rest) =
      if x = a ∧ y = b then c :: replacePair a b c rest
      else x :: replacePair a b c (y :: rest) := rfl

theorem hasPair_nil (a b : Char) : hasPair a b [] = false := rfl

theorem hasPair_singleton (a b x : Char) : hasPair a b [x] = false := rfl

theorem hasPair_cons_cons (a b x y : Char) (rest : List Char) :
    hasPair a b (x :: y :: rest) = ((x == a && y == b) || hasPair a b (y :: rest)) := rfl

/-- Two-step list induction matching the recursion pattern of `replacePair`. -/
theorem twoStepInduction {P : List Char → Prop} (h0 : P [])
    (h1 : ∀ x, P [x])
    (h2 : ∀ x y rest, P rest → P (y :: rest) → P (x :: y :: rest)) :
    ∀ l, P l
  | [] => h0
  | [x] => h1 x
  | x :: y :: rest =>
    h2 x y rest (twoStepInduction h0 h1 h2 rest) (twoStepInduction h0 h1 h2 (y :: rest))

theorem replacePair_length_le (a b c : Char) :
    ∀ l, (replacePair a b c l).length ≤ l.length := by
  apply twoStepInduction
  · simp [replacePair_nil]
  · intro x; simp [replacePair_singleton]
  · intro x y rest ih1 ih2
    rw [replacePair_cons_cons]
    by_cases h : x = a ∧ y = b
    · rw [if_pos h]
      simp only [List.length_cons]
      omega
    · rw [if_neg h]
      simp only [List.length_cons] at ih2 ⊢
      omega

theorem replacePair_eq_self (a b c : Char) :
    ∀ l, hasPair a b l = false → replacePair a b c l = l := by
  apply twoStepInduction
  · intro _; rfl
  · intro x _; rfl
  · intro x y rest _ ih2 h
    rw [hasPair_cons_cons] at h
    obtain ⟨h1, h2⟩ := Bool.or_eq_false_iff.mp h
    rw [replacePair_cons_cons, if_neg, ih2 h2]
    intro hc
    rw [hc.1, hc.2] at h1
    simp at h1

theorem replacePair_length_lt (a b c : Char) :
    ∀ l, hasPair a b l = true → (replacePair a b c l).length < l.length := by
  apply twoStepInduction
  · intro h; exact absurd h (by simp [hasPair_nil])
  · intro x h; exact absurd h (by simp [hasPair_singleton])
  · intro x y rest _ ih2 h
    rw [replacePair_cons_cons]
    by_cases hc : x = a ∧ y = b
    · rw [if_pos hc]
      have := replacePair_length_le a b c rest
      simp only [List.length_cons]
      omega
    · rw [if_neg hc]
      rw [hasPair_cons_cons] at h
      have h2 : hasPair a b (y :: rest) = true := by
        rcases Bool.or_eq_true_iff.mp h with h1 | h2
        · exfalso
          obtain ⟨hx, hy⟩ := Bool.and_eq_true_iff.mp h1
          exact hc ⟨beq_iff_eq.mp hx, beq_iff_eq.mp hy⟩
        · exact h2
      have := ih2 h2
      simp only [List.length_cons] at this ⊢
      omega

theorem collapseStep_length_lt (l : List Char) (h : collapseGuard l = true) :
    (collapseStep l).length < l.length := by
  unfold collapseStep
  by_cases h1 : hasPair '-' '-' l = true
  · have d1 := replacePair_length_lt '-' '-' '-' l h1
    have d2 := replacePair_length_le '_' '_' '_' (replacePair '-' '-' '-' l)
    have d3 := replacePair_length_le '_' '-' '-'
      (replacePair '_' '_' '_' (replacePair '-' '-' '-' l))
    have d4 := replacePair_length_le '-' '_' '-'
      (replacePair '_' '-' '-' (replacePair '_' '_' '_' (replacePair '-' '-' '-' l)))
    omega
  · rw [replacePair_eq_self '-' '-' '-' l (Bool.eq_false_iff.mpr h1)]
    by_cases h2 : hasPair '_' '_' l = true
    · have d2 := replacePair_length_lt '_' '_' '_' l h2
      have d3 := replacePair_length_le '_' '-' '-' (replacePair '_' '_' '_' l)
      have d4 := replacePair_length_le '-' '_' '-'
        (replacePair '_' '-' '-' (replacePair '_' '_' '_' l))
      omega
    · rw [replacePair_eq_self '_' '_' '_' l (Bool.eq_false_iff.mpr h2)]
      by_cases h3 : hasPair '_' '-' l = true
      · have d3 := replacePair_length_lt '_' '-' '-' l h3
        have d4 := replacePair_length_le '-' '_' '-' (replacePair '_' '-' '-' l)
        omega
      · rw [replacePair_eq_self '_' '-' '-' l (Bool.eq_false_iff.mpr h3)]
        by_cases h4 : hasPair '-' '_' l = true
        · exact replacePair_length_lt '-' '_' '-' l h4
        · exfalso
          unfold collapseGuard at h
          rw [Bool.eq_false_iff.mpr h1, Bool.eq_false_iff.mpr h2,
            Bool.eq_false_iff.mpr h3, Bool.eq_false_iff.mpr h4] at h
          simp at h

/-- The collapsing `for` loop of `sanitizePackageName` (uploader.go lines
1377-1382): repeat `collapseStep` until no pattern remains.  Terminates since
each productive iteration strictly shortens the list. -/
def collapse (l : List Char) : List Char :=
  if hg : collapseGuard l = true then collapse (collapseStep l) else l
termination_by l.length
decreasing_by exact collapseStep_length_lt l hg

theorem collapse_eq (l : List Char) :
    collapse l = if _h : collapseGuard l = true then collapse (collapseStep l) else l := by
  rw [collapse]

/-- `Uploader.sanitizePackageName` minus the empty-input shortcut: lowercase,
dots to hyphens, every other invalid character to `-`, trim `-`/`_` at both
ends, then collapse runs. -/
def sanitizeCore (l : List Char) : List Char :=
  collapse (trimDashes
    (((l.map Char.toLower).map (fun c => if c = '.' then '-' else c)).map
      (fun c => if isPkgChar c then c else '-')))

/-- `Uploader.sanitizePackageName` (uploader.go lines 1358-1385).
`strings.ToLower` is modelled per rune by `Char.toLower`; both lower only
basic-latin letters, and every character the two could disagree on is outside
`[a-z0-9_-]` and is therefore replaced by `-` in the very next step either
way. -/
def sanitizePackageName (name : String) : String :=
  if name = "" then name else String.mk (sanitizeCore name.data)

/-! #### Invariants carried through the collapse loop -/

/-- Every character is in the `[a-z0-9_-]` class. -/
def allPkgChars (l : List Char) : Prop := ∀ c ∈ l, isPkgChar c = true

/-- The first character, if any, is not `-`/`_`. -/
def headOkP (l : List Char) : Prop := ∀ c, l.head? = some c → isTrimChar c = false

/-- The last character, if any, is not `-`/`_`. -/
def lastOkP (l : List Char) : Prop := ∀ c, l.getLast? = some c → isTrimChar c = false

/-- The invariant preserved by the pipeline after trimming. -/
def goodChars (l : List Char) : Prop := allPkgChars l ∧ headOkP l ∧ lastOkP l

theorem getLast?_cons_of_ne_nil (x : Char) {l : List Char} (h : l ≠ []) :
    (x :: l).getLast? = l.getLast? := by
  cases l with
  | nil => exact absurd rfl h
  | cons y ys => exact List.getLast?_cons_cons

theorem replacePair_ne_nil (a b c : Char) :
    ∀ l, l ≠ [] → replacePair a b c l ≠ [] := by
  apply twoStepInduction
  · intro h; exact absurd rfl h
  · intro x _; rw [replacePair_singleton]; simp
  · intro x y rest _ _ _
    rw [replacePair_cons_cons]
    by_cases hc : x = a ∧ y = b
    · rw [if_pos hc]; simp
    · rw [if_neg hc]; simp

theorem replacePair_allPkg (a b c : Char) (hc : isPkgChar c = true) :
    ∀ l, allPkgChars l → allPkgChars (replacePair a b c l) := by
  apply twoStepInduction
  · intro h; exact h
  · intro x h; exact h
  · intro x y rest ih1 ih2 h
    have hrest : allPkgChars rest := fun d hd =>
      h d (List.mem_cons_of_mem x (List.mem_cons_of_mem y hd))
    have hyrest : allPkgChars (y :: rest) := fun d hd => h d (List.mem_cons_of_mem x hd)
    rw [replacePair_cons_cons]
    by_cases hxy : x = a ∧ y = b
    · rw [if_pos hxy]
      intro d hd
      rcases List.mem_cons.mp hd with he | hd
      · rw [he]; exact hc
      · exact ih1 hrest d hd
    · rw [if_neg hxy]
      intro d hd
      rcases List.mem_cons.mp hd with he | hd
      · rw [he]; exact h x (List.mem_cons_self x (y :: rest))
      · exact ih2 hyrest d hd

theorem replacePair_headOk (a b c : Char) (ha : isTrimChar a = true) :
    ∀ l, headOkP l → headOkP (replacePair a b c l) := by
  intro l hl
  cases l with
  | nil => exact hl
  | cons x rest =>
    have hx : isTrimChar x = false := hl x rfl
    have hxa : ¬ x = a := by
      intro he; rw [he, ha] at hx; exact absurd hx (by decide)
    cases rest with
    | nil => rw [replacePair_singleton]; exact hl
    | cons y ys =>
      rw [replacePair_cons_cons, if_neg (fun hc => hxa hc.1)]
      intro d hd
      rw [List.head?_cons, Option.some.injEq] at hd
      rw [← hd]
      exact hx

theorem replacePair_lastOk (a b c : Char) (hb : isTrimChar b = true) :
    ∀ l, lastOkP l → lastOkP (replacePair a b c l) := by
  apply twoStepInduction
  · intro h; exact h
  · intro x h; rw [replacePair_singleton]; exact h
  · intro x y rest ih1 ih2 h
    have hyrest : lastOkP (y :: rest) := by
      intro d hd
      apply h
      rw [getLast?_cons_of_ne_nil x (by simp)]
      exact hd
    rw [replacePair_cons_cons]
    by_cases hxy : x = a ∧ y = b
    · rw [if_pos hxy]
      cases rest with
      | nil =>
        exfalso
        have hy := h y (by rw [getLast?_cons_of_ne_nil x (by simp)]; rfl)
        rw [hxy.2, hb] at hy
        exact absurd hy (by decide)
      | cons r rs =>
        have hrest : lastOkP (r :: rs) := by
          intro d hd
          apply hyrest
          rw [getLast?_cons_of_ne_nil y (by simp)]
          exact hd
        have hrp := ih1 hrest
        intro d hd
        rw [getLast?_cons_of_ne_nil c (replacePair_ne_nil a b c (r :: rs) (by simp))] at hd
        exact hrp d hd
    · rw [if_neg hxy]
      have hyp := ih2 hyrest
      intro d hd
      rw [getLast?_cons_of_ne_nil x (replacePair_ne_nil a b c (y :: rest) (by simp))] at hd
      exact hyp d hd

theorem replacePair_good (a b c : Char) (ha : isTrimChar a = true)
    (hb : isTrimChar b = true) (hc : isPkgChar c = true) (l : List Char)
    (h : goodChars l) : goodChars (replacePair a b c l) :=
  ⟨replacePair_allPkg a b c hc l h.1, replacePair_headOk a b c ha l h.2.1,
   replacePair_lastOk a b c hb l h.2.2⟩

theorem collapseStep_good (l : List Char) (h : goodChars l) :
    goodChars (collapseStep l) := by
  unfold collapseStep
  exact replacePair_good '-' '_' '-' (by decide) (by decide) (by decide) _
    (replacePair_good '_' '-' '-' (by decide) (by decide) (by decide) _
      (replacePair_good '_' '_' '_' (by decide) (by decide) (by decide) _
        (replacePair_good '-' '-' '-' (by decide) (by decide) (by decide) _ h)))

theorem collapse_preserves {P : List Char → Prop}
    (hstep : ∀ l, P l → P (collapseStep l)) :
    ∀ (n : Nat) (l : List Char), l.length ≤ n → P l → P (collapse l) := by
  intro n
  induction n with
  | zero =>
    intro l hlen hp
    have hnil : l = [] := List.eq_nil_of_length_eq_zero (Nat.le_zero.mp hlen)
    subst hnil
    rw [collapse_eq, dif_neg (by simp [collapseGuard, hasPair_nil])]
    exact hp
  | succ n ih =>
    intro l hlen hp
    rw [collapse_eq]
    by_cases hg : collapseGuard l = true
    · rw [dif_pos hg]
      have hlt := collapseStep_length_lt l hg
      exact ih (collapseStep l) (by omega) (hstep l hp)
    · rw [dif_neg hg]
      exact hp

theorem collapseGuard_collapse :
    ∀ (n : Nat) (l : List Char), l.length ≤ n → collapseGuard (collapse l) = false := by
  intro n
  induction n with
  | zero =>
    intro l hlen
    have hnil : l = [] := List.eq_nil_of_length_eq_zero (Nat.le_zero.mp hlen)
    subst hnil
    rw [collapse_eq, dif_neg (by simp [collapseGuard, hasPair_nil])]
    simp [collapseGuard, hasPair_nil]
  | succ n ih =>
    intro l hlen
    rw [collapse_eq]
    by_cases hg : collapseGuard l = true
    · rw [dif_pos hg]
      have hlt := collapseStep_length_lt l hg
      exact ih (collapseStep l) (by omega)
    · rw [dif_neg hg]
      exact Bool.eq_false_iff.mpr hg

theorem collapse_good (l : List Char) (h : goodChars l) : goodChars (collapse l) :=
  collapse_preserves collapseStep_good l.length l le_rfl h

theorem collapse_eq_self (l : List Char) (h : collapseGuard l = false) :
    collapse l = l := by
  rw [collapse_eq, dif_neg (by rw [h]; exact Bool.false_ne_true)]

/-! #### The trim step establishes the invariant -/

theorem head?_dropWhile_false (p : Char → Bool) (l : List Char) :
    ∀ c, (l.dropWhile p).head? = some c → p c = false := by
  intro c hc
  have h := List.head?_dropWhile_not p l
  rw [hc] at h
  exact h

theorem getLast?_dropWhile (p : Char → Bool) :
    ∀ l : List Char, l.dropWhile p ≠ [] → (l.dropWhile p).getLast? = l.getLast? := by
  intro l
  induction l with
  | nil => intro h; exact absurd rfl h
  | cons x xs ih =>
    intro h
    by_cases hp : p x = true
    · rw [List.dropWhile_cons_of_pos hp] at h ⊢
      have hxs : xs ≠ [] := by
        intro he
        rw [he] at h
        exact h rfl
      rw [ih h, getLast?_cons_of_ne_nil x hxs]
    · rw [List.dropWhile_cons_of_neg (by simp [hp])]

theorem trimDashes_good (l : List Char) (hall : allPkgChars l) :
    goodChars (trimDashes l) := by
  unfold trimDashes
  refine ⟨?_, ?_, ?_⟩
  · intro c hc
    apply hall
    have h1 : c ∈ (l.dropWhile isTrimChar).reverse.dropWhile isTrimChar :=
      List.mem_reverse.mp hc
    have h2 : c ∈ (l.dropWhile isTrimChar).reverse :=
      (List.dropWhile_sublist isTrimChar).subset h1
    have h3 : c ∈ l.dropWhile isTrimChar := List.mem_reverse.mp h2
    exact (List.dropWhile_sublist isTrimChar).subset h3
  · intro c hc
    rw [List.head?_reverse] at hc
    have hBne : (l.dropWhile isTrimChar).reverse.dropWhile isTrimChar ≠ [] := by
      intro he
      rw [he] at hc
      exact absurd hc (by simp)
    rw [getLast?_dropWhile isTrimChar _ hBne, List.getLast?_reverse] at hc
    exact head?_dropWhile_false isTrimChar l c hc
  · intro c hc
    rw [List.getLast?_reverse] at hc
    exact head?_dropWhile_false isTrimChar (l.dropWhile isTrimChar).reverse c hc

theorem mapped_allPkg (l : List Char) :
    allPkgChars (l.map (fun c => if isPkgChar c then c else '-')) := by
  intro c hc
  obtain ⟨d, _, hd⟩ := List.mem_map.mp hc
  by_cases h : isPkgChar d = true
  · rw [← hd, if_pos h]; exact h
  · rw [← hd, if_neg h]; decide

theorem sanitizeCore_good (l : List Char) : goodChars (sanitizeCore l) := by
  unfold sanitizeCore
  exact collapse_good _ (trimDashes_good _ (mapped_allPkg _))

theorem collapseGuard_sanitizeCore (l : List Char) :
    collapseGuard (sanitizeCore l) = false := by
  unfold sanitizeCore
  exact collapseGuard_collapse (trimDashes _).length _ le_rfl

/-! #### A good list is a fixpoint of the whole pipeline -/

theorem map_fixed {f : Char → Char} :
    ∀ l : List Char, (∀ c ∈ l, f c = c) → l.map f = l := by
  intro l
  induction l with
  | nil => intro _; rfl
  | cons x xs ih =>
    intro h
    rw [List.map_cons, h x (List.mem_cons_self x xs),
      ih (fun c hc => h c (List.mem_cons_of_mem x hc))]

theorem toLower_fixed_of_isPkgChar (c : Char) (h : isPkgChar c = true) :
    Char.toLower c = c := by
  have hn : ¬(c.toNat ≥ 65 ∧ c.toNat ≤ 90) := by
    intro hc
    simp only [isPkgChar, Bool.or_eq_true, Bool.and_eq_true, decide_eq_true_eq,
      beq_iff_eq] at h
    rcases h with ((⟨ha, hb⟩ | ⟨ha, hb⟩) | he) | he
    · omega
    · omega
    · rw [he] at hc
      exact absurd hc.2 (by decide)
    · rw [he] at hc
      exact absurd hc.1 (by decide)
  simp only [Char.toLower]
  rw [if_neg hn]

theorem not_dot_of_isPkgChar (c : Char) (h : isPkgChar c = true) : c ≠ '.' := by
  intro he
  rw [he] at h
  exact absurd h (by decide)

theorem dropWhile_eq_self_of_headOk (p : Char → Bool) (l : List Char)
    (h : ∀ c, l.head? = some c → p c = false) : l.dropWhile p = l := by
  cases l with
  | nil => rfl
  | cons x xs =>
    have hx := h x rfl
    rw [List.dropWhile_cons_of_neg (by simp [hx])]

theorem trimDashes_eq_self (l : List Char) (h2 : headOkP l) (h3 : lastOkP l) :
    trimDashes l = l := by
  unfold trimDashes
  rw [dropWhile_eq_self_of_headOk isTrimChar l h2]
  rw [dropWhile_eq_self_of_headOk isTrimChar l.reverse
    (fun c hc => h3 c (by rwa [List.head?_reverse] at hc))]
  exact List.reverse_reverse l

theorem sanitizeCore_fixed (l : List Char) (h : goodChars l)
    (hguard : collapseGuard l = false) : sanitizeCore l = l := by
  obtain ⟨h1, h2, h3⟩ := h
  have m1 : l.map Char.toLower = l :=
    map_fixed l (fun c hc => toLower_fixed_of_isPkgChar c (h1 c hc))
  have m2 : l.map (fun c => if c = '.' then '-' else c) = l :=
    map_fixed l (fun c hc => if_neg (not_dot_of_isPkgChar c (h1 c hc)))
  have m3 : l.map (fun c => if isPkgChar c then c else '-') = l :=
    map_fixed l (fun c hc => if_pos (h1 c hc))
  unfold sanitizeCore
  rw [m1, m2, m3, trimDashes_eq_self l h2 h3, collapse_eq_self l hguard]

theorem sanitizeCore_idem (l : List Char) :
    sanitizeCore (sanitizeCore l) = sanitizeCore l :=
  sanitizeCore_fixed _ (sanitizeCore_good l) (collapseGuard_sanitizeCore l)

theorem sanitizePackageName_idem (x : String) :
    sanitizePackageName (sanitizePackageName x) = sanitizePackageName x := by
  by_cases hx : x = ""
  · subst hx
    rfl
  · have hx1 : sanitizePackageName x = String.mk (sanitizeCore x.data) := by
      unfold sanitizePackageName
      rw [if_neg hx]
    rw [hx1]
    by_cases h2 : String.mk (sanitizeCore x.data) = ""
    · rw [h2]
      rfl
    · have hstep : sanitizePackageName (String.mk (sanitizeCore x.data))
          = String.mk (sanitizeCore (String.mk (sanitizeCore x.data)).data) := by
        unfold sanitizePackageName
        rw [if_neg h2]
      rw [hstep]
      have hdata : (String.mk (sanitizeCore x.data)).data = sanitizeCore x.data := rfl
      rw [hdata, sanitizeCore_idem]

theorem isVersionChar_of_mapped (l : List Char) :
    ∀ c ∈ l.map (fun c => if isVersionChar c then c else '_'), isVersionChar c = true := by
  intro c hc
  obtain ⟨d, _, hd⟩ := List.mem_map.mp hc
  by_cases h : isVersionChar d = true
  · rw [← hd, if_pos h]; exact h
  · rw [← hd, if_neg h]; decide

theorem sanitizeVersion_idem (x : String) :
    sanitizeVersion (sanitizeVersion x) = sanitizeVersion x := by
  by_cases hx : x = ""
  · subst hx
    rfl
  · have hx1 : sanitizeVersion x =
        (if (x.data.map (fun c => if isVersionChar c then c else '_')).dropWhile
              isVersionTrimChar = [] then "latest"
         else String.mk ((x.data.map (fun c => if isVersionChar c then c else '_')).dropWhile
              isVersionTrimChar)) := by
      unfold sanitizeVersion
      rw [if_neg hx]
    by_cases ht : (x.data.map (fun c => if isVersionChar c then c else '_')).dropWhile
        isVersionTrimChar = []
    · rw [hx1, if_pos ht]
      decide
    · rw [hx1, if_neg ht]
      set trimmed := (x.data.map (fun c => if isVersionChar c then c else '_')).dropWhile
        isVersionTrimChar with htr
      have hne : String.mk trimmed ≠ "" := by
        intro he
        apply ht
        have := congrArg String.data he
        simpa using this
      have hall : ∀ c ∈ trimmed, isVersionChar c = true := by
        intro c hc
        exact isVersionChar_of_mapped x.data c
          ((List.dropWhile_sublist isVersionTrimChar).subset (htr ▸ hc))
      have hm : trimmed.map (fun c => if isVersionChar c then c else '_') = trimmed :=
        map_fixed trimmed (fun c hc => if_pos (hall c hc))
      have hhead : ∀ c, trimmed.head? = some c → isVersionTrimChar c = false := by
        intro c hc
        rw [htr] at hc
        exact head?_dropWhile_false isVersionTrimChar _ c hc
      have hdata : (String.mk trimmed).data = trimmed := rfl
      unfold sanitizeVersion
      rw [if_neg hne]
      simp only [hdata, hm, dropWhile_eq_self_of_headOk isVersionTrimChar trimmed hhead]
      rw [if_neg ht]

/-- C7. Both sanitization functions are idempotent: a second application of
`sanitizePackageName` or of `sanitizeVersion` leaves their output unchanged. -/
theorem sanitize_idempotent (x : String) :
    sanitizePackageName (sanitizePackageName x) = sanitizePackageName x ∧
    sanitizeVersion (sanitizeVersion x) = sanitizeVersion x :=
  ⟨sanitizePackageName_idem x, sanitizeVersion_idem x⟩

end BuildSystem
